/-
Verification of the `burger` service-combinator library.

Shallow embedding of the core combinators of the repository:
the two-phase `acquire`/`call` contract, the admission combinators
(`ConcurrencyLimit`, `Buffer`, `LoadShed`, `RateLimit`), the `Retry`
combinator, and the power-of-two-choices dynamic balancer (`balance/p2c.rs`).

Asynchronous bodies are embedded as terms of a small free-monad `Prog`
whose nodes mark the `.await` points (suspending awaits), the
`now_or_never` polls (non-suspending), and synchronous resource effects
(`drop`/`forget` of a semaphore permit).  Shared-state components
(semaphores, the balancer's registry behind its read/write lock) are
embedded as explicit transition systems.
-/
import Mathlib

namespace Burger

/-! ## A small model of async programs

`Prog ε α`: an asynchronous computation returning `α`, whose interaction
with the environment happens through effects `ε`.

* `await e k`  — `e.await` : suspends until `e` completes, resumes with a
  token (the permit/ticket/response produced by the effect);
* `tryAwait e k` — `e.now_or_never()` : polls `e` exactly once, never
  suspends, resumes with `some token` if `e` was immediately ready and
  `none` otherwise;
* `emit e k` — a synchronous effect (e.g. dropping or forgetting a
  semaphore permit).
-/

inductive Prog (ε : Type) (α : Type) where
  | pure (a : α)
  | await (e : ε) (k : Nat → Prog ε α)
  | tryAwait (e : ε) (k : Option Nat → Prog ε α)
  | emit (e : ε) (k : Prog ε α)

/-- One observable event of a run: a (completed) suspending await, a
non-suspending poll together with whether the effect was ready, or a
synchronous effect. -/
inductive Ev (ε : Type) where
  | awaited (e : ε)
  | polled (e : ε) (ready : Bool)
  | emitted (e : ε)
deriving DecidableEq

/-- Run a program to completion.  `imm e` tells whether effect `e` is
immediately ready (and with which token); `supply e` is the token an
`await` of `e` eventually resumes with (an `await` of a non-immediate
effect suspends first, but still completes). -/
def Prog.run {ε α : Type} (imm : ε → Option Nat) (supply : ε → Nat) :
    Prog ε α → List (Ev ε) × α
  | .pure a => ([], a)
  | .await e k =>
      let r := Prog.run imm supply (k (supply e))
      (.awaited e :: r.1, r.2)
  | .tryAwait e k =>
      let o := imm e
      let r := Prog.run imm supply (k o)
      (.polled e o.isSome :: r.1, r.2)
  | .emit e k =>
      let r := Prog.run imm supply k
      (.emitted e :: r.1, r.2)

/-- The events of a run. -/
def Prog.events {ε α : Type} (imm : ε → Option Nat) (supply : ε → Nat)
    (p : Prog ε α) : List (Ev ε) :=
  (p.run imm supply).1

/-- The result of a run. -/
def Prog.result {ε α : Type} (imm : ε → Option Nat) (supply : ε → Nat)
    (p : Prog ε α) : α :=
  (p.run imm supply).2

/-- A run suspends iff it awaits an effect that was not immediately
ready (`tryAwait` and `emit` never suspend). -/
def Prog.suspends {ε α : Type} (imm : ε → Option Nat) (supply : ε → Nat)
    (p : Prog ε α) : Prop :=
  ∃ e, Ev.awaited e ∈ p.events imm supply ∧ imm e = none

/-! ## Power-of-two-choices selection (`src/balance/p2c.rs`, `BalanceInner::acquire`)

`BalanceInner::acquire` races the `acquire` of every registered backend
in a `FuturesUnordered`, waits for the first `(service, permit)` pair to
resolve, then polls once (`now_or_never`) for a second.  With no second
candidate the first permit is returned directly; otherwise the loads are
compared: `if first_load < second_load { first_permit } else { second_permit }`.

We embed the selection stage over the list of candidates in resolution
order (head = first to resolve). -/

/-- A backend candidate that resolved in the race: its identity and its
`Load::load()` metric at comparison time. -/
structure Candidate (M : Type) where
  id : Nat
  load : M
deriving DecidableEq

/-- The body of `BalanceInner::acquire` after the race, over the
candidates in resolution order.  `[]` is the branch where
`permits.next().await.unwrap()` would panic (no first permit). -/
def balanceSelect {M : Type} [LT M] [DecidableRel ((· < ·) : M → M → Prop)] :
    List (Candidate M) → Option (Candidate M)
  | [] => none
  | [first] => some first
  | first :: second :: _ =>
      some (if first.load < second.load then first else second)

/-! ## ConcurrencyLimit (`src/concurrency_limit.rs`)

```rust
async fn acquire(&self) -> Self::Permit<'_> {
    ConcurrencyLimitPermit {
        inner: self.inner.acquire().await,
        _semaphore_permit: self.semaphore.acquire().await.expect("not closed"),
    }
}
```

Rust struct-literal fields are evaluated in the order they are written,
so the body awaits the *inner* acquire first and the semaphore ticket
second. -/

/-- The awaited effects of `ConcurrencyLimit::acquire`. -/
inductive CLEffect where
  | innerAcquire
  | semAcquire
deriving DecidableEq

/-- `ConcurrencyLimitPermit`: the combined permit bundles the inner
permit and the semaphore ticket. -/
structure ConcurrencyLimitPermit where
  inner : Nat
  semaphorePermit : Nat
deriving DecidableEq

/-- Embedding of `ConcurrencyLimit::acquire`: the struct-literal fields
in written order — inner acquire, then semaphore acquire. -/
def concurrencyLimitAcquire : Prog CLEffect ConcurrencyLimitPermit :=
  .await .innerAcquire fun innerPermit =>
  .await .semAcquire fun ticket =>
  .pure { inner := innerPermit, semaphorePermit := ticket }

/-! ### The semaphore discipline of `ConcurrencyLimit` (claim C3)

The ticket obtained in `acquire` lives in the permit
(`_semaphore_permit` field); `call` moves only `permit.inner` out, so
the ticket is dropped — returning it to the semaphore — when `call`'s
body finishes (after the inner call completes), or when an unused permit
is dropped.  We embed this as a transition system over the counters that
matter:

* `available` — tickets free in the `Semaphore::new(n)`;
* `acquired`  — permits handed out by `acquire`, `call` not yet started;
* `executing` — inner calls in flight (each still bundling its ticket).
-/

structure CLState where
  available : Nat
  acquired : Nat
  executing : Nat
deriving DecidableEq

/-- Transitions of `ConcurrencyLimit(n)`.  `acquire` completes only when
a ticket is free; starting a call moves a permit into the executing
set (the ticket stays bundled); a completed call drops the rest of the
permit, releasing the ticket; a permit dropped before `call` also
releases its ticket. -/
inductive CLStep : CLState → CLState → Prop where
  | acquire (s : CLState) (h : 0 < s.available) :
      CLStep s ⟨s.available - 1, s.acquired + 1, s.executing⟩
  | startCall (s : CLState) (h : 0 < s.acquired) :
      CLStep s ⟨s.available, s.acquired - 1, s.executing + 1⟩
  | finishCall (s : CLState) (h : 0 < s.executing) :
      CLStep s ⟨s.available + 1, s.acquired, s.executing - 1⟩
  | dropPermit (s : CLState) (h : 0 < s.acquired) :
      CLStep s ⟨s.available + 1, s.acquired - 1, s.executing⟩

/-- States reachable by `ConcurrencyLimit(n)` from its construction
(`Semaphore::new(n)`, nothing acquired, nothing executing). -/
inductive CLReachable (n : Nat) : CLState → Prop where
  | init : CLReachable n ⟨n, 0, 0⟩
  | step {s s' : CLState} : CLReachable n s → CLStep s s' → CLReachable n s'

theorem CLReachable.ticket_conservation {n : Nat} {s : CLState}
    (h : CLReachable n s) :
    s.available + s.acquired + s.executing = n := by
  induction h with
  | init => simp
  | step _ hstep ih =>
      cases hstep with
      | acquire h => simp at ih ⊢; omega
      | startCall h => simp at ih ⊢; omega
      | finishCall h => simp at ih ⊢; omega
      | dropPermit h => simp at ih ⊢; omega

/-! ## Buffer (`src/buffer.rs`)

```rust
async fn acquire(&self) -> Self::Permit<'_> {
    BufferPermit {
        inner: match self.inner.acquire().now_or_never() {
            Some(some) => BufferPermitInner::Eager(some),
            None => BufferPermitInner::Buffered(
                &self.inner,
                self.semaphore.acquire().await.expect("not closed"),
            ),
        },
    }
}

async fn call(permit: Self::Permit<'_>, request: Request) -> Self::Response {
    let permit = match permit.inner {
        BufferPermitInner::Eager(permit) => permit,
        BufferPermitInner::Buffered(service, _permit) => {
            let permit = service.acquire().await;
            drop(_permit);
            permit
        }
    };
    S::call(permit, request).await
}
```
-/

/-- The effects of `Buffer`: the inner service's acquire, the buffer
semaphore's acquire, dropping a buffer slot, and the inner call with a
given inner permit. -/
inductive BufEffect where
  | innerAcquire
  | slotAcquire
  | slotDrop
  | innerCall (permit : Nat)
deriving DecidableEq

/-- `BufferPermitInner`: an eager inner permit, or a held buffer slot.
(The `&'a S` service reference of the `Buffered` variant is implicit.) -/
inductive BufferPermitInner where
  | eager (inner : Nat)
  | buffered (slot : Nat)
deriving DecidableEq

/-- Embedding of `Buffer::acquire`. -/
def bufferAcquire : Prog BufEffect BufferPermitInner :=
  .tryAwait .innerAcquire fun
    | some innerPermit => .pure (.eager innerPermit)
    | none => .await .slotAcquire fun slot => .pure (.buffered slot)

/-- Embedding of `Buffer::call` (response = token of the inner call). -/
def bufferCall (permit : BufferPermitInner) : Prog BufEffect Nat :=
  match permit with
  | .eager innerPermit =>
      .await (.innerCall innerPermit) fun response => .pure response
  | .buffered _slot =>
      .await .innerAcquire fun innerPermit =>
      .emit .slotDrop
      (.await (.innerCall innerPermit) fun response => .pure response)

/-! ## LoadShed (`src/load_shed.rs`)

```rust
async fn acquire(&self) -> Self::Permit<'_> {
    self.inner.acquire().now_or_never()
}

async fn call(permit: Self::Permit<'_>, request: Request) -> Self::Response {
    if let Some(permit) = permit {
        Ok(S::call(permit, request).await)
    } else {
        Err(request)
    }
}
```
-/

/-- The effects of `LoadShed`: the inner acquire and the inner call. -/
inductive LSEffect where
  | innerAcquire
  | innerCall (permit : Nat)
deriving DecidableEq

/-- Embedding of `LoadShed::acquire`. -/
def loadShedAcquire : Prog LSEffect (Option Nat) :=
  .tryAwait .innerAcquire fun o => .pure o

/-- Embedding of `LoadShed::call` over an abstract request type;
`Except Request Nat` is `Result<S::Response, Request>` with the inner
response modelled by the inner call's token. -/
def loadShedCall {Request : Type} (permit : Option Nat) (request : Request) :
    Prog LSEffect (Except Request Nat) :=
  match permit with
  | some innerPermit =>
      .await (.innerCall innerPermit) fun response => .pure (.ok response)
  | none => .pure (.error request)

/-! ## RateLimit (`src/rate_limit.rs`)

```rust
async fn acquire(&self) -> Self::Permit<'_> {
    let fut = async move { /* refill loop:
        sleep_until(last_update + interval);
        self.semaphore.forget_permits(usize::MAX);
        self.semaphore.add_permits(self.permits); */ };
    let acquire = self.semaphore.acquire();
    let permit = select! { permit = acquire => { permit }, never = fut => { never } };
    RateLimitPermit { _permit: permit.unwrap(), inner: self.inner.acquire().await }
}

async fn call<'a>(permit: Self::Permit<'a>, request: Request) -> Self::Response {
    let RateLimitPermit { inner, _permit } = permit;
    _permit.forget();
    S::call(inner, request).await
}
```

The semaphore is modelled with its free-ticket count and the count of
tickets held inside live permits; `SemaphorePermit::forget` consumes a
held ticket without returning it, `drop` returns it. -/

structure Semaphore where
  available : Nat
  held : Nat
deriving DecidableEq

/-- `Semaphore::acquire` when a ticket is free; `none` is the suspended
case (the waiter parks until `add_permits`). -/
def Semaphore.acquireTicket (s : Semaphore) : Option Semaphore :=
  if 0 < s.available then some ⟨s.available - 1, s.held + 1⟩ else none

/-- Dropping a `SemaphorePermit` returns its ticket. -/
def Semaphore.dropTicket (s : Semaphore) : Semaphore :=
  ⟨s.available + 1, s.held - 1⟩

/-- `SemaphorePermit::forget`: the ticket is consumed, never returned. -/
def Semaphore.forgetTicket (s : Semaphore) : Semaphore :=
  ⟨s.available, s.held - 1⟩

/-- The refill arm of the `select!` in `RateLimit::acquire`:
`forget_permits(usize::MAX)` discards every free ticket, then
`add_permits(self.permits)` issues `permits` fresh ones. -/
def rateLimitRefill (permits : Nat) (s : Semaphore) : Semaphore :=
  ⟨permits, s.held⟩

/-- The semaphore effect of `RateLimit::call`: `_permit.forget()` before
delegating to the inner call.  (Dropping the permit instead would be
`Semaphore.dropTicket`.) -/
def rateLimitCallEffect (s : Semaphore) : Semaphore :=
  s.forgetTicket

/-- One sequential one-shot round against `RateLimit` within a single
interval (no refill fires): `acquire` takes a ticket, `call` forgets
it.  `none`: the round's `acquire` suspends. -/
def rateLimitOneShot (s : Semaphore) : Option Semaphore :=
  (s.acquireTicket).map rateLimitCallEffect

/-- `k` sequential completed one-shot calls within one interval. -/
def rateLimitRounds (s : Semaphore) : Nat → Option Semaphore
  | 0 => some s
  | k + 1 => (rateLimitRounds s k).bind rateLimitOneShot

/-! ## The balancer registry (`src/balance/p2c.rs`, `BalanceInner`)

The registry is an `IndexMap<Key, S>`:

```rust
fn insert(&mut self, key: Key, service: S) -> Option<S> {
    self.services.insert(key, service)
}
fn remove(&mut self, key: &Key) -> Option<S> {
    self.services.swap_remove(key)
}
```

`IndexMap::insert` overwrites in place when the key is present and
appends otherwise; `IndexMap::swap_remove` looks the key up, swaps its
entry with the last entry and pops — a no-op when the key is absent.
The registry is embedded as an association list in index order. -/

/-- Index of the first entry with the given key (`IndexMap` keys are
unique, so at most one entry matches). -/
def findKeyIdx {K V : Type} [DecidableEq K] (k : K) :
    List (K × V) → Option Nat
  | [] => none
  | p :: rest => if p.1 = k then some 0 else (findKeyIdx k rest).map (· + 1)

/-- Lookup by key (`IndexMap::get`). -/
def registryGet {K V : Type} [DecidableEq K] (m : List (K × V)) (k : K) :
    Option V :=
  (m.find? fun p => p.1 = k).map Prod.snd

/-- `IndexMap::insert`: overwrite in place when present, append when
absent. -/
def registryInsert {K V : Type} [DecidableEq K] (m : List (K × V)) (k : K)
    (v : V) : List (K × V) :=
  if m.any fun p => p.1 = k then
    m.map fun p => if p.1 = k then (k, v) else p
  else m ++ [(k, v)]

/-- `IndexMap::swap_remove`: replace the key's slot with the last entry
and pop the last slot; no-op when the key is absent. -/
def registrySwapRemove {K V : Type} [DecidableEq K] (m : List (K × V))
    (k : K) : List (K × V) :=
  match h : findKeyIdx k m with
  | none => m
  | some i =>
      have hm : m ≠ [] := by
        intro he
        rw [he] at h
        simp [findKeyIdx] at h
      (m.set i (m.getLast hm)).dropLast

/-- A registry change event (`balance::Change`). -/
inductive BalChange (K V : Type) where
  | insert (k : K) (v : V)
  | remove (k : K)

/-- The worker's mutation of the registry for one change
(`Change::Insert` → `BalanceInner::insert`, `Change::Remove` →
`BalanceInner::remove`). -/
def applyChange {K V : Type} [DecidableEq K] (m : List (K × V)) :
    BalChange K V → List (K × V)
  | .insert k v => registryInsert m k v
  | .remove k => registrySwapRemove m k

/-- The worker applies a drained batch of changes strictly in sequence
order. -/
def applyChanges {K V : Type} [DecidableEq K] (m : List (K × V))
    (cs : List (BalChange K V)) : List (K × V) :=
  cs.foldl applyChange m

/-! ## Retry (`src/retry.rs`)

The `Policy` trait:

```rust
fn create(&self, request: &Request) -> (Self::RequestState<'_>, Request);
fn classify(&self, state: &mut Self::RequestState<'_>, request: &Request,
            response: &Output) -> Self::Future<'_>;   // Output = Result<(), Request>
```

`create` may substitute the request (it returns a fresh one); `classify`
receives `&this.request` — the request stored in the `RetryFuture` at
`call` time and never overwritten — and resolves to `Ok(())` (accept)
or `Err(next_request)` (retry).  The policy state is threaded by
mutable reference; we model `classify` as returning the updated state
together with the outcome. -/

structure RetryPolicy (PState Request Response : Type) where
  create : Request → PState × Request
  classify : PState → Request → Response → PState × Except Request Unit

/-- The states of `RetryFutureInner`.  `calling` holds the in-flight
first call (its permit and the request moved into `S::call`);
`retrying` holds the in-flight `Oneshot`; `classifying` holds the
response and the resolved outcome of the classify future. -/
inductive RetryInner (PState Request Response : Type) where
  | initial (permit : Nat)
  | calling (permit : Nat) (req : Request) (state : PState)
  | retrying (req : Request) (state : PState)
  | classifying (state : PState) (outcome : Except Request Unit)
      (response : Response)
  | pending

/-- Observable events of a `RetryFuture` execution: inner `acquire`s
(yielding a permit), inner calls (the permit used and the request sent),
and `classify` invocations (the request reference handed to the
policy). -/
inductive RetryEvent (Request : Type) where
  | innerAcquire (permit : Nat)
  | innerCall (permit : Nat) (req : Request)
  | classify (req : Request)

/-- The running state of a `RetryFuture`: the state-machine arm, the
`request` field (set at `Retry::call`, never reassigned), the inner
service's next fresh permit, and the event trace so far. -/
structure RetryExec (PState Request Response : Type) where
  inner : RetryInner PState Request Response
  request : Request
  nextPermit : Nat
  trace : List (RetryEvent Request)

/-- One arm of the `loop` in `RetryFuture::poll`, with every awaited
future resolved (`respond permit req` is the inner service's response).

* `initial`: `policy.create(&this.request)` produces the state and the
  (possibly substituted) request moved into `S::call(permit, request)`;
* `calling`/`retrying`: the call (resp. the fresh one-shot
  acquire-plus-call) resolves, then
  `policy.classify(&mut state, &this.request, &response)`;
* `classifying`: `Ok(())` returns the response, `Err(request)` starts
  `this.service.oneshot(request)`. -/
def retryStep {PState Request Response : Type}
    (policy : RetryPolicy PState Request Response)
    (respond : Nat → Request → Response)
    (st : RetryExec PState Request Response) :
    RetryExec PState Request Response ⊕ (Response × RetryExec PState Request Response) :=
  match st.inner with
  | .initial permit =>
      let created := policy.create st.request
      .inl { st with
        inner := .calling permit created.2 created.1,
        trace := st.trace ++ [.innerCall permit created.2] }
  | .calling permit req state =>
      let response := respond permit req
      let classified := policy.classify state st.request response
      .inl { st with
        inner := .classifying classified.1 classified.2 response,
        trace := st.trace ++ [.classify st.request] }
  | .retrying req state =>
      let permit := st.nextPermit
      let response := respond permit req
      let classified := policy.classify state st.request response
      .inl { st with
        inner := .classifying classified.1 classified.2 response,
        nextPermit := st.nextPermit + 1,
        trace := st.trace ++
          [.innerAcquire permit, .innerCall permit req, .classify st.request] }
  | .classifying state outcome response =>
      match outcome with
      | .ok _ => .inr (response, { st with inner := .pending })
      | .error req => .inl { st with inner := .retrying req state }
  | .pending => .inl st

/-- Iterate `retryStep` (the `loop` of `RetryFuture::poll`), with fuel
for termination.  Returns the accepted response, if any, and the final
execution state. -/
def retryRun {PState Request Response : Type}
    (policy : RetryPolicy PState Request Response)
    (respond : Nat → Request → Response) :
    Nat → RetryExec PState Request Response →
    Option Response × RetryExec PState Request Response
  | 0, st => (none, st)
  | fuel + 1, st =>
      match retryStep policy respond st with
      | .inl st' => retryRun policy respond fuel st'
      | .inr (response, st') => (some response, st')

/-- The execution state built by `Retry::call`: the held inner permit
goes into `Initial`, the caller's request into the `request` field.
Fresh inner permits are numbered from `permit + 1`. -/
def retryCallInit {PState Request Response : Type} (permit : Nat)
    (request : Request) : RetryExec PState Request Response :=
  { inner := .initial permit, request := request, nextPermit := permit + 1,
    trace := [] }

/-- The single effect of `Retry::acquire`. -/
inductive RetryAcqEffect where
  | innerAcquire
deriving DecidableEq

/-- Embedding of `Retry::acquire` (`RetryAcquire` polls
`self.inner.acquire()` to completion and wraps the permit). -/
def retryAcquire : Prog RetryAcqEffect Nat :=
  .await .innerAcquire fun permit => .pure permit

/-! ## The balancer as a transition system (`p2c`, `src/balance/p2c.rs`)

`p2c(changes)` builds the shared `Arc<RwLock<BalanceInner>>`, takes the
write guard immediately (`try_write_owned().unwrap()` — the "empty
guard") and returns the `Balance` handle plus the worker future.  The
worker waits for a change, takes the write lock if it does not already
hold the guard, applies available changes under the lock, and releases
the lock only if the registry is non-empty (otherwise it keeps holding
it as the empty guard).  A selector (`Balance::acquire`) goes through
the `RwLock` service impl: `self.read().await.acquire().await` — it
waits for a read lock, runs `BalanceInner::acquire` under it, and
releases it.

The interleaving of the worker and any number of selectors is embedded
as a transition system.  `panicked` records whether a selector ever ran
`BalanceInner::acquire` on an empty registry (where
`permits.next().await.unwrap()` would panic). -/

structure BalancerState (K V : Type) where
  registry : List (K × V)
  writerHeld : Bool
  readers : Nat
  waiting : Nat
  completed : Nat
  panicked : Bool
  terminated : Bool
  changes : List (BalChange K V)

/-- The interleaved transitions of the worker and the selectors. -/
inductive BalStep {K V : Type} [DecidableEq K] :
    BalancerState K V → BalancerState K V → Prop where
  /-- A new task calls `Balance::acquire` and waits at `inner.read()`. -/
  | selectorStart (s : BalancerState K V) :
      BalStep s { s with waiting := s.waiting + 1 }
  /-- A waiting selector obtains the read lock — possible only while no
  writer holds the lock. -/
  | selectorRead (s : BalancerState K V) (h : s.writerHeld = false)
      (hw : 0 < s.waiting) :
      BalStep s { s with waiting := s.waiting - 1, readers := s.readers + 1 }
  /-- A reading selector runs the `BalanceInner::acquire` body and
  releases the read lock; on an empty registry the `unwrap` of the first
  raced permit panics instead of completing. -/
  | selectorSelect (s : BalancerState K V) (h : 0 < s.readers) :
      BalStep s { s with
        readers := s.readers - 1,
        completed := if s.registry.isEmpty then s.completed else s.completed + 1,
        panicked := s.panicked || s.registry.isEmpty }
  /-- The worker receives a change and takes the write lock (only needed
  when it is not already holding the empty guard; the write lock waits
  out all readers). -/
  | workerLock (s : BalancerState K V) (h : s.writerHeld = false)
      (hr : s.readers = 0) (hc : s.changes ≠ [])
      (hterm : s.terminated = false) :
      BalStep s { s with writerHeld := true }
  /-- The worker applies the next change under the write lock. -/
  | workerApply (s : BalancerState K V) (c : BalChange K V)
      (rest : List (BalChange K V)) (h : s.writerHeld = true)
      (hc : s.changes = c :: rest) (hterm : s.terminated = false) :
      BalStep s { s with registry := applyChange s.registry c, changes := rest }
  /-- The worker releases the write lock — the code does this only when
  the registry is non-empty; while it is empty the guard is retained. -/
  | workerRelease (s : BalancerState K V) (h : s.writerHeld = true)
      (hne : s.registry ≠ []) (hterm : s.terminated = false) :
      BalStep s { s with writerHeld := false }
  /-- The change stream ends: the worker returns `Err(Terminated)`
  (`return Err(Terminated)` inside the drain loop, or the fall-through
  after the `while let`), dropping whichever write guard it still
  holds — the empty guard included, even when the registry is empty. -/
  | workerTerminate (s : BalancerState K V) (hc : s.changes = [])
      (hterm : s.terminated = false) :
      BalStep s { s with writerHeld := false, terminated := true }

/-- States reachable from the construction of `p2c(changes)`: empty
registry, the empty guard already held, no selectors yet, the worker
alive. -/
inductive BalReachable {K V : Type} [DecidableEq K]
    (cs : List (BalChange K V)) : BalancerState K V → Prop where
  | init : BalReachable cs
      { registry := [], writerHeld := true, readers := 0, waiting := 0,
        completed := 0, panicked := false, terminated := false,
        changes := cs }
  | step {s s' : BalancerState K V} :
      BalReachable cs s → BalStep s s' → BalReachable cs s'

/-- The inductive invariant: readers run only while the lock is free,
and while the worker is alive the lock is free only with a non-empty
registry, readers see a non-empty registry, and no selector has
panicked.  (After termination the guard is gone: an empty registry is
then exposed to selectors.) -/
def BalInv {K V : Type} (s : BalancerState K V) : Prop :=
  (0 < s.readers → s.writerHeld = false) ∧
  (s.terminated = false → s.writerHeld = false → s.registry ≠ []) ∧
  (s.terminated = false → 0 < s.readers → s.registry ≠ []) ∧
  (s.terminated = false → s.panicked = false)

theorem BalStep.preserves_inv {K V : Type} [DecidableEq K]
    {s s' : BalancerState K V} (hstep : BalStep s s') (hinv : BalInv s) :
    BalInv s' := by
  obtain ⟨h1, h2, h3, h4⟩ := hinv
  cases hstep with
  | selectorStart => exact ⟨h1, h2, h3, h4⟩
  | selectorRead h hw =>
      exact ⟨fun _ => h, h2, fun ht _ => h2 ht h, h4⟩
  | selectorSelect h =>
      refine ⟨fun _ => h1 h, h2, fun ht hr => h3 ht ?_, fun ht => ?_⟩
      · simp only at hr; omega
      · have hne : s.registry ≠ [] := h3 ht h
        simp [h4 ht, List.isEmpty_iff, hne]
  | workerLock h hr hc hterm =>
      refine ⟨?_, fun _ hwf => Bool.noConfusion hwf, fun ht hr' => ?_, h4⟩
      · intro hr'
        simp only at hr'
        omega
      · simp only at hr'
        omega
  | workerApply c rest h hc hterm =>
      have hr0 : s.readers = 0 := by
        by_contra hne
        have hwf := h1 (by omega)
        rw [h] at hwf
        exact Bool.noConfusion hwf
      refine ⟨?_, ?_, ?_, h4⟩
      · intro hr'
        simp only at hr'
        omega
      · intro _ hwf
        have hwf' : s.writerHeld = false := hwf
        rw [h] at hwf'
        exact Bool.noConfusion hwf'
      · intro _ hr'
        simp only at hr'
        omega
  | workerRelease h hne hterm =>
      exact ⟨fun _ => rfl, fun _ _ => hne, fun _ _ => hne, h4⟩
  | workerTerminate hc hterm =>
      exact ⟨fun _ => rfl, fun ht => Bool.noConfusion ht,
        fun ht => Bool.noConfusion ht, fun ht => Bool.noConfusion ht⟩

theorem BalReachable.inv {K V : Type} [DecidableEq K]
    {cs : List (BalChange K V)} {s : BalancerState K V}
    (h : BalReachable cs s) : BalInv s := by
  induction h with
  | init => exact ⟨by simp, by simp, by simp, fun _ => rfl⟩
  | step _ hstep ih => exact hstep.preserves_inv ih

/-! ## Registry lemmas -/

theorem findKeyIdx_eq_none_iff {K V : Type} [DecidableEq K] (k : K)
    (m : List (K × V)) : findKeyIdx k m = none ↔ ∀ p ∈ m, p.1 ≠ k := by
  induction m with
  | nil => simp [findKeyIdx]
  | cons p rest ih =>
      by_cases h : p.1 = k
      · simp [findKeyIdx, h]
      · simp [findKeyIdx, h, Option.map_eq_none', ih]

theorem findKeyIdx_spec {K V : Type} [DecidableEq K] {k : K}
    {m : List (K × V)} {i : Nat} (h : findKeyIdx k m = some i) :
    ∃ hlt : i < m.length, (m.get ⟨i, hlt⟩).1 = k := by
  induction m generalizing i with
  | nil => simp [findKeyIdx] at h
  | cons p rest ih =>
      by_cases hp : p.1 = k
      · simp [findKeyIdx, hp] at h
        subst h
        exact ⟨by simp, by simpa using hp⟩
      · simp [findKeyIdx, hp] at h
        obtain ⟨j, hj, rfl⟩ := h
        obtain ⟨hlt, hkey⟩ := ih hj
        exact ⟨by simpa using Nat.succ_lt_succ hlt, by simpa using hkey⟩

theorem registryGet_eq_none_iff {K V : Type} [DecidableEq K]
    (m : List (K × V)) (k : K) :
    registryGet m k = none ↔ ∀ p ∈ m, p.1 ≠ k := by
  simp [registryGet, Option.map_eq_none', List.find?_eq_none]

/-- `IndexMap::insert` overwrites: after `insert(k, v)` the key `k` maps
to `v`. -/
theorem registryGet_insert_self {K V : Type} [DecidableEq K]
    (m : List (K × V)) (k : K) (v : V) :
    registryGet (registryInsert m k v) k = some v := by
  induction m with
  | nil => simp [registryInsert, registryGet]
  | cons p rest ih =>
      by_cases hp : p.1 = k
      · simp [registryInsert, registryGet, hp, List.find?_cons]
      · by_cases hr : rest.any fun q => q.1 = k
        · simp [registryInsert, registryGet, hp, hr, List.find?_cons] at ih ⊢
          exact ih
        · simp [registryInsert, registryGet, hp, hr, List.find?_cons] at ih ⊢
          exact ih

/-- `IndexMap::swap_remove` is a no-op when the key is absent. -/
theorem registrySwapRemove_absent {K V : Type} [DecidableEq K]
    (m : List (K × V)) (k : K) (h : registryGet m k = none) :
    registrySwapRemove m k = m := by
  have hidx : findKeyIdx k m = none :=
    (findKeyIdx_eq_none_iff k m).mpr ((registryGet_eq_none_iff m k).mp h)
  unfold registrySwapRemove
  split
  · rfl
  · next i heq => rw [hidx] at heq; exact Option.noConfusion heq

/-- Inserting preserves key uniqueness. -/
theorem registryInsert_keys_nodup {K V : Type} [DecidableEq K]
    (m : List (K × V)) (k : K) (v : V)
    (hnd : (m.map Prod.fst).Nodup) :
    ((registryInsert m k v).map Prod.fst).Nodup := by
  unfold registryInsert
  split
  · next hany =>
      have hkeys : ((m.map fun p => if p.1 = k then (k, v) else p).map Prod.fst)
          = m.map Prod.fst := by
        rw [List.map_map]
        apply List.map_congr_left
        intro p _
        by_cases h : p.1 = k <;> simp [h]
      rw [hkeys]
      exact hnd
  · next hany =>
      rw [List.map_append, List.nodup_append]
      refine ⟨hnd, by simp, ?_⟩
      intro x hx hx'
      simp at hx'
      subst hx'
      obtain ⟨p, hp, hpk⟩ := List.mem_map.mp hx
      exact hany (List.any_eq_true.mpr ⟨p, hp, by simp [hpk]⟩)

/-- With unique keys, `swap_remove(k)` leaves `k` absent. -/
theorem registryGet_swapRemove_self {K V : Type} [DecidableEq K]
    (m : List (K × V)) (k : K) (hnd : (m.map Prod.fst).Nodup) :
    registryGet (registrySwapRemove m k) k = none := by
  have keyinj : ∀ x y (hx : x < m.length) (hy : y < m.length),
      (m.get ⟨x, hx⟩).1 = (m.get ⟨y, hy⟩).1 → x = y := by
    intro x y hx hy hxy
    have hx' : x < (m.map Prod.fst).length := by simpa using hx
    have hy' : y < (m.map Prod.fst).length := by simpa using hy
    have hmap : (m.map Prod.fst).get ⟨x, hx'⟩ = (m.map Prod.fst).get ⟨y, hy'⟩ := by
      simp only [List.get_eq_getElem, List.getElem_map]
      exact hxy
    exact (List.Nodup.getElem_inj_iff hnd).mp
      (by simpa only [List.get_eq_getElem] using hmap)
  unfold registrySwapRemove
  split
  · next heq =>
      rw [registryGet_eq_none_iff]
      exact (findKeyIdx_eq_none_iff k m).mp heq
  · next i heq =>
      obtain ⟨hi, hik⟩ := findKeyIdx_spec heq
      rw [registryGet_eq_none_iff]
      intro p hp hpk
      have hm : m ≠ [] := by
        intro he
        subst he
        simp at hi
      obtain ⟨j, hj, hjp⟩ := List.mem_iff_getElem.mp hp
      have hjlen : j < m.length - 1 := by
        have h1 := hj
        rw [List.length_dropLast, List.length_set] at h1
        exact h1
      rw [List.getElem_dropLast] at hjp
      have hlast : m.getLast hm = m.get ⟨m.length - 1, by omega⟩ := by
        rw [List.getLast_eq_getElem]
        rfl
      by_cases hij : i = j
      · subst hij
        rw [List.getElem_set] at hjp
        simp at hjp
        subst hjp
        rw [hlast] at hpk
        have := keyinj (m.length - 1) i (by omega) hi (by rw [hpk, hik])
        omega
      · rw [List.getElem_set] at hjp
        rw [if_neg hij] at hjp
        subst hjp
        have := keyinj j i (by omega) hi
          (by simp only [List.get_eq_getElem]; rw [hpk]; exact hik.symm)
        omega

/-! ## Claim theorems -/

/-- C1 counterexample: with candidate A = id 0 and candidate B = id 1
both resolved at equal load 5, `BalanceInner::acquire` returns
candidate B's permit — the claim's "on a tie, candidate A is selected,
never B" is false on the code (`first_load < second_load` fails on a
tie, so the `else` branch takes the second permit). -/
theorem p2c_tie_counterexample :
    balanceSelect [(⟨0, 5⟩ : Candidate Nat), ⟨1, 5⟩] = some ⟨1, 5⟩ ∧
    ((⟨1, 5⟩ : Candidate Nat) ≠ ⟨0, 5⟩) := by
  decide

/-- C1 (amended): whenever a second candidate B is available, the
candidate with the strictly lower load is selected; on a tie, candidate
B (the second to resolve) is selected, never A; with no second
candidate, A is used directly. -/
theorem p2c_selection (M : Type) [LinearOrder M] (a b : Candidate M)
    (rest : List (Candidate M)) :
    (a.load < b.load → balanceSelect (a :: b :: rest) = some a) ∧
    (b.load < a.load → balanceSelect (a :: b :: rest) = some b) ∧
    (a.load = b.load → balanceSelect (a :: b :: rest) = some b) ∧
    balanceSelect [a] = some a := by
  refine ⟨fun h => ?_, fun h => ?_, fun h => ?_, rfl⟩
  · simp [balanceSelect, h]
  · simp [balanceSelect, not_lt_of_gt h]
  · simp [balanceSelect, h]

theorem p2c_selection_witness :
    balanceSelect [(⟨0, 1⟩ : Candidate Nat), ⟨1, 2⟩] = some ⟨0, 1⟩ :=
  (p2c_selection Nat ⟨0, 1⟩ ⟨1, 2⟩ []).1 (by decide)

/-- C2 counterexample: the awaited effects of
`ConcurrencyLimit::acquire` are the inner acquire first and the
semaphore ticket second (Rust struct-literal fields are evaluated in
written order), not the ticket first as claimed. -/
theorem concurrencyLimit_order_counterexample :
    concurrencyLimitAcquire.events (fun _ => none) (fun _ => 0) =
      [Ev.awaited CLEffect.innerAcquire, Ev.awaited CLEffect.semAcquire] ∧
    concurrencyLimitAcquire.events (fun _ => none) (fun _ => 0) ≠
      [Ev.awaited CLEffect.semAcquire, Ev.awaited CLEffect.innerAcquire] := by
  decide

/-- C2 (amended): for every environment, `ConcurrencyLimit::acquire`
performs the inner `acquire` first, then waits for and obtains a
semaphore ticket, and the returned permit bundles the inner permit and
the ticket. -/
theorem concurrencyLimit_acquire_semantics (imm : CLEffect → Option Nat)
    (supply : CLEffect → Nat) :
    concurrencyLimitAcquire.events imm supply =
      [Ev.awaited CLEffect.innerAcquire, Ev.awaited CLEffect.semAcquire] ∧
    concurrencyLimitAcquire.result imm supply =
      { inner := supply CLEffect.innerAcquire,
        semaphorePermit := supply CLEffect.semAcquire } :=
  ⟨rfl, rfl⟩

/-- C3: every state of `ConcurrencyLimit(n)` reachable by any
interleaving of concurrent callers has at most `n` inner calls
executing, and every ticket is accounted for — free, held by a
pre-call permit, or held for the whole duration of an executing call
(released only by `finishCall` or `dropPermit`). -/
theorem concurrencyLimit_bound {n : Nat} {s : CLState}
    (h : CLReachable n s) :
    s.executing ≤ n ∧ s.available + s.acquired + s.executing = n := by
  have hc := h.ticket_conservation
  exact ⟨by omega, hc⟩

theorem concurrencyLimit_bound_witness :
    (⟨1, 0, 1⟩ : CLState).executing ≤ 2 ∧
    (⟨1, 0, 1⟩ : CLState).available + (⟨1, 0, 1⟩ : CLState).acquired
      + (⟨1, 0, 1⟩ : CLState).executing = 2 := by
  have h0 : CLReachable 2 ⟨2, 0, 0⟩ := .init
  have h1 : CLReachable 2 ⟨1, 1, 0⟩ := .step h0 (.acquire _ (by decide))
  have h2 : CLReachable 2 ⟨1, 0, 1⟩ := .step h1 (.startCall _ (by decide))
  exact concurrencyLimit_bound h2

/-- C8: the worker's registry mutations, applied strictly in sequence
order: a drained batch ending `Insert(k,A), Insert(k,B), Remove(k)`
leaves `k` absent; `Insert` overwrites an existing entry; `Remove` of
an absent key is a no-op. -/
theorem registry_mutation_ordering {K V : Type} [DecidableEq K]
    (m : List (K × V)) (k : K) (a b : V)
    (hnd : (m.map Prod.fst).Nodup) :
    registryGet (applyChanges m
      [BalChange.insert k a, BalChange.insert k b, BalChange.remove k]) k
      = none ∧
    registryGet (registryInsert m k a) k = some a ∧
    (registryGet m k = none → registrySwapRemove m k = m) := by
  refine ⟨?_, registryGet_insert_self m k a, registrySwapRemove_absent m k⟩
  show registryGet
    (registrySwapRemove (registryInsert (registryInsert m k a) k b) k) k = none
  exact registryGet_swapRemove_self _ k
    (registryInsert_keys_nodup _ k b (registryInsert_keys_nodup m k a hnd))

theorem registry_mutation_ordering_witness :
    registryGet (applyChanges [((1 : Nat), (10 : Nat))]
      [BalChange.insert 0 7, BalChange.insert 0 8, BalChange.remove 0]) 0
      = none ∧
    registryGet (registryInsert [((1 : Nat), (10 : Nat))] 0 7) 0 = some 7 ∧
    (registryGet [((1 : Nat), (10 : Nat))] 0 = none →
      registrySwapRemove [((1 : Nat), (10 : Nat))] 0 = [(1, 10)]) :=
  registry_mutation_ordering [(1, 10)] 0 7 8 (by decide)

theorem rateLimitRounds_closed (p : Nat) :
    ∀ k, k ≤ p → rateLimitRounds ⟨p, 0⟩ k = some ⟨p - k, 0⟩ := by
  intro k
  induction k with
  | zero => intro _; simp [rateLimitRounds]
  | succ k ih =>
      intro hk
      rw [rateLimitRounds, ih (by omega), Option.some_bind]
      unfold rateLimitOneShot Semaphore.acquireTicket
      rw [if_pos (show 0 < (Semaphore.mk (p - k) 0).available by simp; omega)]
      simp only [Option.map_some']
      unfold rateLimitCallEffect Semaphore.forgetTicket
      have h1 : p - k - 1 = p - (k + 1) := by omega
      simp [h1]

/-- C9: `RateLimit::call` forgets the bundled ticket instead of
returning it, so completing a call never increases the available-ticket
count (a drop would); consequently `k ≤ P` completed sequential calls
in one interval leave `P - k` tickets, and after `P` completed calls a
further `acquire` finds no ticket even though no call is in flight —
the limiter bounds calls per interval, not concurrency. -/
theorem rateLimit_forgets_ticket (a held k permits : Nat)
    (hk : k ≤ permits) :
    (rateLimitCallEffect ⟨a, held⟩).available = a ∧
    (Semaphore.dropTicket ⟨a, held⟩).available = a + 1 ∧
    rateLimitRounds ⟨permits, 0⟩ k = some ⟨permits - k, 0⟩ ∧
    (rateLimitRounds ⟨permits, 0⟩ permits).bind Semaphore.acquireTicket
      = none := by
  refine ⟨rfl, rfl, rateLimitRounds_closed permits k hk, ?_⟩
  rw [rateLimitRounds_closed permits permits le_rfl]
  simp [Semaphore.acquireTicket]

theorem rateLimit_forgets_ticket_witness :
    (rateLimitCallEffect ⟨3, 1⟩).available = 3 ∧
    (Semaphore.dropTicket ⟨3, 1⟩).available = 3 + 1 ∧
    rateLimitRounds ⟨5, 0⟩ 2 = some ⟨5 - 2, 0⟩ ∧
    (rateLimitRounds ⟨5, 0⟩ 5).bind Semaphore.acquireTicket = none :=
  rateLimit_forgets_ticket 3 1 2 5 (by decide)

/-- C4 counterexample: with the empty change sequence the worker
terminates at once (`while let` sees the stream end, `Err(Terminated)`),
dropping the empty guard while the registry is still empty; a selector
then obtains the read lock and executes `BalanceInner::acquire` over
the empty registry, where `permits.next().await.unwrap()` panics — a
reachable state executes the selector body on an empty registry,
refuting the claimed invariant. -/
theorem balancer_empty_guard_counterexample :
    ∃ s : BalancerState Nat Unit,
      BalReachable [] s ∧ s.panicked = true ∧ s.registry = [] := by
  have h0 : BalReachable ([] : List (BalChange Nat Unit))
      ({ registry := [], writerHeld := true, readers := 0, waiting := 0,
         completed := 0, panicked := false, terminated := false,
         changes := [] } : BalancerState Nat Unit) :=
    .init
  have h1 := BalReachable.step h0 (.selectorStart _)
  have h2 := BalReachable.step h1 (.workerTerminate _ rfl rfl)
  have h3 := BalReachable.step h2 (.selectorRead _ rfl (by decide))
  have h4 := BalReachable.step h3 (.selectorSelect _ (by decide))
  exact ⟨_, h4, by decide, rfl⟩

/-- C4 (amended): in every reachable balancer state in which the worker
has not terminated (the change stream has not ended), the selector body
never runs while the registry is empty — the worker's held empty guard
excludes it, so the `unwrap` of the first raced permit cannot panic and
an empty-start balancer suspends `acquire`; and from an empty start
with a pending selector, applying an `Insert` lets the pending
`acquire` complete.  Once the stream terminates, the guard is dropped
even with an empty registry and the protection ends. -/
theorem balancer_empty_guard {K V : Type} [DecidableEq K]
    (cs : List (BalChange K V)) (s : BalancerState K V)
    (h : BalReachable cs s) (hterm : s.terminated = false) :
    ((0 < s.readers → s.registry ≠ []) ∧ s.panicked = false) ∧
    ∃ s' : BalancerState Nat Unit,
      BalReachable [BalChange.insert 0 ()] s' ∧ 0 < s'.completed := by
  refine ⟨⟨h.inv.2.2.1 hterm, h.inv.2.2.2 hterm⟩, ?_⟩
  have h0 : BalReachable [BalChange.insert 0 ()]
      ({ registry := [], writerHeld := true, readers := 0, waiting := 0,
         completed := 0, panicked := false, terminated := false,
         changes := [BalChange.insert 0 ()] } : BalancerState Nat Unit) :=
    .init
  have h1 := BalReachable.step h0 (.selectorStart _)
  have h2 := BalReachable.step h1
    (.workerApply _ (BalChange.insert 0 ()) [] rfl rfl rfl)
  have h3 := BalReachable.step h2 (.workerRelease _ rfl (by decide) rfl)
  have h4 := BalReachable.step h3 (.selectorRead _ rfl (by decide))
  have h5 := BalReachable.step h4 (.selectorSelect _ (by decide))
  exact ⟨_, h5, by decide⟩

theorem balancer_empty_guard_witness :
    ((0 < (0 : Nat) → ([] : List (Nat × Unit)) ≠ []) ∧ false = false) ∧
    ∃ s' : BalancerState Nat Unit,
      BalReachable [BalChange.insert 0 ()] s' ∧ 0 < s'.completed :=
  balancer_empty_guard [] _ BalReachable.init rfl

/-- C5: `Buffer::acquire` tries the inner `acquire` without suspending;
if the inner permit is immediately available the permit is eager, no
buffer slot is touched, and `acquire` did not suspend.  Otherwise one
buffer slot is awaited (suspending exactly when no slot is free), and
`Buffer::call` on the buffered permit performs the deferred inner
`acquire`, then drops the slot, then runs the inner call. -/
theorem buffer_semantics (imm : BufEffect → Option Nat)
    (supply : BufEffect → Nat) :
    (∀ p, imm BufEffect.innerAcquire = some p →
      bufferAcquire.run imm supply =
        ([Ev.polled BufEffect.innerAcquire true], BufferPermitInner.eager p) ∧
      ¬ bufferAcquire.suspends imm supply) ∧
    (imm BufEffect.innerAcquire = none →
      bufferAcquire.run imm supply =
        ([Ev.polled BufEffect.innerAcquire false, Ev.awaited BufEffect.slotAcquire],
         BufferPermitInner.buffered (supply BufEffect.slotAcquire)) ∧
      (bufferAcquire.suspends imm supply ↔ imm BufEffect.slotAcquire = none)) ∧
    (∀ slot, (bufferCall (BufferPermitInner.buffered slot)).events imm supply =
      [Ev.awaited BufEffect.innerAcquire, Ev.emitted BufEffect.slotDrop,
       Ev.awaited (BufEffect.innerCall (supply BufEffect.innerAcquire))]) ∧
    (∀ p, (bufferCall (BufferPermitInner.eager p)).events imm supply =
      [Ev.awaited (BufEffect.innerCall p)]) := by
  refine ⟨fun p hp => ⟨?_, ?_⟩, fun hn => ⟨?_, ?_⟩, fun slot => rfl, fun p => rfl⟩
  · simp [bufferAcquire, Prog.run, hp]
  · intro hsusp
    obtain ⟨e, he, _⟩ := hsusp
    simp [Prog.events, bufferAcquire, Prog.run, hp] at he
  · simp [bufferAcquire, Prog.run, hn]
  · constructor
    · intro hsusp
      obtain ⟨e, he, hie⟩ := hsusp
      simp [Prog.events, bufferAcquire, Prog.run, hn] at he
      subst he
      exact hie
    · intro hslot
      exact ⟨BufEffect.slotAcquire,
        by simp [Prog.events, bufferAcquire, Prog.run, hn], hslot⟩

theorem buffer_semantics_witness :
    (bufferAcquire.run (fun _ => some 7) (fun _ => 0) =
       ([Ev.polled BufEffect.innerAcquire true], BufferPermitInner.eager 7) ∧
     ¬ bufferAcquire.suspends (fun _ => some 7) (fun _ => 0)) :=
  (buffer_semantics (fun _ => some 7) (fun _ => 0)).1 7 rfl

/-- C6: `LoadShed::acquire` never suspends and yields `Some` exactly
when the inner permit is immediately available; `call` on `None` fails
immediately, performing no inner effect and returning the original
request unchanged; `call` on `Some` delegates to the inner call and
passes its response through. -/
theorem loadShed_semantics {Request : Type} (imm : LSEffect → Option Nat)
    (supply : LSEffect → Nat) (request : Request) :
    (¬ loadShedAcquire.suspends imm supply) ∧
    loadShedAcquire.result imm supply = imm LSEffect.innerAcquire ∧
    (loadShedCall none request).run imm supply =
      ([], Except.error request) ∧
    (∀ p, (loadShedCall (some p) request).run imm supply =
      ([Ev.awaited (LSEffect.innerCall p)],
       Except.ok (supply (LSEffect.innerCall p)))) := by
  refine ⟨?_, rfl, rfl, fun p => rfl⟩
  intro hsusp
  obtain ⟨e, he, _⟩ := hsusp
  simp [Prog.events, loadShedAcquire, Prog.run] at he

/-! ## Retry lemmas -/

theorem retryStep_spec {PState Request Response : Type}
    (policy : RetryPolicy PState Request Response)
    (respond : Nat → Request → Response)
    (st : RetryExec PState Request Response) :
    (∀ st', retryStep policy respond st = Sum.inl st' →
      st'.request = st.request ∧
      ∃ d, st'.trace = st.trace ++ d ∧
        ∀ r, RetryEvent.classify r ∈ d → r = st.request) ∧
    (∀ resp st', retryStep policy respond st = Sum.inr (resp, st') →
      st'.request = st.request ∧ st'.trace = st.trace) := by
  constructor
  · intro st' h
    cases hst : st.inner <;> simp only [retryStep, hst] at h
    case initial permit =>
        injection h with h
        subst h
        exact ⟨rfl, [.innerCall permit (policy.create st.request).2], rfl,
          by intro r hr; simp at hr⟩
    case calling permit req state =>
        injection h with h
        subst h
        refine ⟨rfl, [.classify st.request], rfl, ?_⟩
        intro r hr
        simpa using hr
    case retrying req state =>
        injection h with h
        subst h
        refine ⟨rfl, [.innerAcquire st.nextPermit, .innerCall st.nextPermit req,
          .classify st.request], rfl, ?_⟩
        intro r hr
        simpa using hr
    case classifying state outcome response =>
        cases outcome with
        | ok u =>
            exact Sum.noConfusion h
        | error req =>
            injection h with h
            subst h
            exact ⟨rfl, [], by simp, by intro r hr; simp at hr⟩
    case pending =>
        injection h with h
        subst h
        exact ⟨rfl, [], by simp, by intro r hr; simp at hr⟩
  · intro resp st' h
    cases hst : st.inner <;> simp only [retryStep, hst] at h
    case initial permit => exact Sum.noConfusion h
    case calling permit req state => exact Sum.noConfusion h
    case retrying req state => exact Sum.noConfusion h
    case classifying state outcome response =>
        cases outcome with
        | ok u =>
            injection h with h
            injection h with h1 h2
            subst h1
            subst h2
            exact ⟨rfl, rfl⟩
        | error req => exact Sum.noConfusion h
    case pending => exact Sum.noConfusion h

theorem retryRun_spec {PState Request Response : Type}
    (policy : RetryPolicy PState Request Response)
    (respond : Nat → Request → Response) :
    ∀ (fuel : Nat) (st : RetryExec PState Request Response),
      (retryRun policy respond fuel st).2.request = st.request ∧
      ∃ d, (retryRun policy respond fuel st).2.trace = st.trace ++ d ∧
        ∀ r, RetryEvent.classify r ∈ d → r = st.request := by
  intro fuel
  induction fuel with
  | zero =>
      intro st
      exact ⟨rfl, [], by simp [retryRun], by intro r hr; simp at hr⟩
  | succ fuel ih =>
      intro st
      cases hstep : retryStep policy respond st with
      | inl st' =>
          have hrun : retryRun policy respond (fuel + 1) st
              = retryRun policy respond fuel st' := by
            rw [retryRun, hstep]
          rw [hrun]
          obtain ⟨hreq, d1, hd1, hc1⟩ :=
            (retryStep_spec policy respond st).1 st' hstep
          obtain ⟨hreq', d2, hd2, hc2⟩ := ih st'
          refine ⟨hreq' ▸ hreq, d1 ++ d2, ?_, ?_⟩
          · rw [hd2, hd1, List.append_assoc]
          · intro r hr
            rcases List.mem_append.mp hr with h | h
            · exact hc1 r h
            · exact hreq ▸ hc2 r h
      | inr pr =>
          obtain ⟨resp, st'⟩ := pr
          have hrun : retryRun policy respond (fuel + 1) st = (some resp, st') := by
            rw [retryRun, hstep]
          rw [hrun]
          obtain ⟨hreq, htr⟩ := (retryStep_spec policy respond st).2 resp st' hstep
          exact ⟨hreq, [], by simp [htr], by intro r hr; simp at hr⟩

/-- A policy that retries until the attempt count reaches 3 and then
accepts; its state is the number of inner calls issued so far. -/
def threeAttemptPolicy (Request Response : Type) :
    RetryPolicy Nat Request Response where
  create := fun request => (1, request)
  classify := fun attempts request _ =>
    if attempts < 3 then (attempts + 1, Except.error request)
    else (attempts, Except.ok ())

/-- C7: `Retry::acquire` performs the inner acquire exactly once; with a
policy that retries until attempt count 3 and then accepts, the call
loop issues exactly 3 inner calls — the first with the held permit, the
later two each through a fresh one-shot acquire — and returns the third
response as soon as classification accepts. -/
theorem retry_three_attempts {Request Response : Type}
    (respond : Nat → Request → Response) (permit : Nat) (req : Request) :
    (∀ imm supply, retryAcquire.events imm supply =
      [Ev.awaited RetryAcqEffect.innerAcquire]) ∧
    retryRun (threeAttemptPolicy Request Response) respond 20
        (retryCallInit permit req) =
      (some (respond (permit + 2) req),
       { inner := RetryInner.pending, request := req,
         nextPermit := permit + 3,
         trace := [RetryEvent.innerCall permit req, RetryEvent.classify req,
           RetryEvent.innerAcquire (permit + 1),
           RetryEvent.innerCall (permit + 1) req, RetryEvent.classify req,
           RetryEvent.innerAcquire (permit + 2),
           RetryEvent.innerCall (permit + 2) req,
           RetryEvent.classify req] }) :=
  ⟨fun _ _ => rfl, rfl⟩

/-- C10: in `RetryFuture`, every `classify` receives the caller's
original request (the `request` field stored at call time and never
replaced), while the first inner call is issued with the request
returned by `Policy::create`, which may differ from the original. -/
theorem retry_request_stability {PState Request Response : Type}
    (policy : RetryPolicy PState Request Response)
    (respond : Nat → Request → Response) (fuel permit : Nat) (req : Request)
    (hfuel : 0 < fuel) :
    (∀ r, RetryEvent.classify r ∈
        (retryRun policy respond fuel (retryCallInit permit req)).2.trace →
      r = req) ∧
    ∃ rest,
      (retryRun policy respond fuel (retryCallInit permit req)).2.trace =
        RetryEvent.innerCall permit (policy.create req).2 :: rest := by
  constructor
  · intro r hr
    obtain ⟨_, d, hd, hc⟩ := retryRun_spec policy respond fuel (retryCallInit permit req)
    rw [hd] at hr
    have hr' : RetryEvent.classify r ∈ d := by
      simpa [retryCallInit] using hr
    exact hc r hr'
  · obtain ⟨fuel, rfl⟩ := Nat.exists_eq_succ_of_ne_zero (by omega : fuel ≠ 0)
    have h1 : retryRun policy respond (fuel + 1) (retryCallInit permit req)
        = retryRun policy respond fuel
            { inner := RetryInner.calling permit (policy.create req).2 (policy.create req).1,
              request := req, nextPermit := permit + 1,
              trace := [RetryEvent.innerCall permit (policy.create req).2] } := rfl
    rw [h1]
    obtain ⟨_, d, hd, _⟩ := retryRun_spec policy respond fuel
      { inner := RetryInner.calling permit (policy.create req).2 (policy.create req).1,
        request := req, nextPermit := permit + 1,
        trace := [RetryEvent.innerCall permit (policy.create req).2] }
    exact ⟨d, by rw [hd]; rfl⟩

/-- A policy whose `create` substitutes the request and whose `classify`
accepts the first response. -/
def substPolicy : RetryPolicy Nat Nat Nat where
  create := fun request => (0, request + 100)
  classify := fun state _ _ => (state, Except.ok ())

theorem retry_request_stability_witness :
    (∀ r, RetryEvent.classify r ∈
        (retryRun substPolicy (fun p r => p + r) 10 (retryCallInit 5 1)).2.trace →
      r = 1) ∧
    ∃ rest,
      (retryRun substPolicy (fun p r => p + r) 10 (retryCallInit 5 1)).2.trace =
        RetryEvent.innerCall 5 (substPolicy.create 1).2 :: rest :=
  retry_request_stability substPolicy (fun p r => p + r) 10 5 1 (by decide)

end Burger
